import Mathlib

/-
Shallow embedding of the keras-text-helper preprocessing scripts
(src/Preprocessing/vocab_builder.py and
src/Preprocessing/prep_data_for_tokenizer.py).

Text is modelled as a list of characters.  The Python primitives used by the
scripts (str.lower, str.split, str.replace, the in operator on strings and
lists, collections.Counter and Counter.most_common) are embedded as
structurally recursive Lean functions so that every definition evaluates by
kernel reduction.  External collaborators (the WordNet lemmatizer and the
nltk word tokenizer) are passed in as function parameters, exactly as the
spec treats them: reusable stateless engines.
-/

/-- A token or a piece of text: a list of characters. -/
abbrev Tok := List Char

/-- ASCII whitespace as recognized by the Python str.split method. -/
def isWs (c : Char) : Bool :=
  c = ' ' || c = '\t' || c = '\n' || c = '\r' || c = '\x0b' || c = '\x0c'

/-- Python str.split with no argument: split on whitespace runs, dropping
empty pieces. -/
def splitWs : List Char → List Tok
  | [] => []
  | c :: xs =>
    if isWs c then splitWs xs
    else
      match xs, splitWs xs with
      | [], _ => [[c]]
      | d :: _, r =>
        if isWs d then [c] :: r
        else
          match r with
          | [] => [[c]]
          | t :: ts => (c :: t) :: ts

/-- Python str.split with separator newline: split at every newline, keeping
empty pieces. -/
def splitNl : List Char → List Tok
  | [] => [[]]
  | c :: xs =>
    if c = '\n' then [] :: splitNl xs
    else
      match splitNl xs with
      | [] => [[c]]
      | t :: ts => (c :: t) :: ts

/-- Number of newline characters in a text. -/
def countNl : List Char → Nat
  | [] => 0
  | c :: xs => (if c = '\n' then 1 else 0) + countNl xs

/-- Bool test that the first list is a prefix of the second. -/
def isPref : List Char → List Char → Bool
  | [], _ => true
  | _ :: _, [] => false
  | a :: as, b :: bs => a = b && isPref as bs

/-- Python substring containment, the in operator on strings. -/
def occursSub (pat : List Char) : List Char → Bool
  | [] => pat.isEmpty
  | c :: xs => isPref pat (c :: xs) || occursSub pat xs

/-- One full pass of Python str.replace: replace every non-overlapping
occurrence of the nonempty pattern, left to right.  The fuel argument is
instantiated with the length of the subject, which is enough for the whole
pass since every step consumes at least one character. -/
def replaceFuel (p : Char) (ps rep : List Char) : Nat → List Char → List Char
  | _, [] => []
  | 0, l => l
  | f + 1, c :: xs =>
    if isPref (p :: ps) (c :: xs) then rep ++ replaceFuel p ps rep f (xs.drop ps.length)
    else c :: replaceFuel p ps rep f xs

/-- A Python while-loop around str.replace: while the pattern occurs, replace
every occurrence.  Fuel-bounded; on the inputs the theorems below evaluate,
the loop reaches its fixed point well within the given fuel. -/
def whileRep (p : Char) (ps rep : List Char) : Nat → List Char → List Char
  | 0, l => l
  | f + 1, l =>
    if occursSub (p :: ps) l then whileRep p ps rep f (replaceFuel p ps rep l.length l)
    else l

/-- The sentinel text used by the quote cleanup of prep_data_for_tokenizer. -/
def dqWord : List Char := "doublequote".data

/-- Lines 66 to 71 of prep_data_for_tokenizer: replace doubled quotes by the
sentinel, strip the remaining quotes, then restore the sentinel as a single
quote character. -/
def cleanQuotes (l : List Char) : List Char :=
  let s1 := whileRep '"' ['"'] dqWord (l.length + 1) l
  let s2 := whileRep '"' [] [] (s1.length + 1) s1
  whileRep 'd' ("oublequote".data) ['"'] (s2.length + 1) s2

/-- Line 58 to 59 of prep_data_for_tokenizer: translate every comma to a
space. -/
def commasToSpaces (l : List Char) : List Char :=
  l.map (fun c => if c = ',' then ' ' else c)

/-- ASCII lowercasing of a single character, the behaviour of the Python
str.lower method on the ASCII range. -/
def lowerChar (c : Char) : Char :=
  if h : 65 ≤ c.toNat ∧ c.toNat ≤ 90 then
    Char.ofNatAux (c.toNat + 32) (Or.inl (by omega))
  else c

/-- Lowercasing of a token. -/
def lowerL (t : Tok) : Tok := t.map lowerChar

/-- The tokens shielded from the lemmatizer at line 98 of
prep_data_for_tokenizer. -/
def cooExceptions : List Tok := ["us".data, "ps".data, "bs".data, "as".data, "es".data]

/-- Per-token normalization of prep_data_for_tokenizer, lines 94 to 99:
lowercase, then lemmatize unless the lowercased token is in the exception
list. -/
def normalizeTok (lem : Tok → Tok) (t : Tok) : Tok :=
  let w := lowerL t
  if w ∈ cooExceptions then w else lem w

/-- Per-token normalization of vocab_builder, lines 57 to 60: lowercase, then
lemmatize unconditionally. -/
def vbNormalize (lem : Tok → Tok) (t : Tok) : Tok := lem (lowerL t)

/-- Space-joining as lines 100 to 103 of prep_data_for_tokenizer build the
lemmatized line. -/
def joinSpace : List Tok → List Char
  | [] => []
  | [t] => t
  | t :: ts => t ++ ' ' :: joinSpace ts

/-- Lemmatization of one line, lines 88 to 106 of prep_data_for_tokenizer. -/
def lemLine (lem : Tok → Tok) (line : List Char) : List Char :=
  joinSpace ((splitWs line).map (normalizeTok lem))

/-- The kept-candidate scan of lines 154 to 159: walk the tokens of the line,
keep the in-vocabulary ones, and stop as soon as the count of kept candidates
exceeds the cap.  The cap check runs before each append. -/
def keepLoop (voc : Tok → Bool) (m : Int) : List Tok → List Tok → List Tok
  | acc, [] => acc
  | acc, t :: ts =>
    if (acc.length : Int) > m then acc
    else if voc t then keepLoop voc m (acc ++ [t]) ts
    else keepLoop voc m acc ts

/-- The dedup loop of lines 160 to 162: append a kept token to the line being
built unless it already occurs, Python substring containment, in that line. -/
def dedupLoop (refined : List Char) : List Tok → List Char
  | [] => refined
  | t :: ts =>
    if occursSub t refined then dedupLoop refined ts
    else dedupLoop (refined ++ ' ' :: t) ts

/-- The subsequence of tokens the dedup loop actually appends. -/
def dedupSelect (refined : List Char) : List Tok → List Tok
  | [] => []
  | t :: ts =>
    if occursSub t refined then dedupSelect refined ts
    else t :: dedupSelect (refined ++ ' ' :: t) ts

/-- Per-line filtering, lines 149 to 171 of prep_data_for_tokenizer: split the
line, scan for kept candidates, dedup, and drop the initial space character. -/
def filterLine (allVoc : List Tok) (m : Int) (line : List Char) : List Char :=
  let tokens := splitWs line
  let kept := keepLoop (fun t => decide (t ∈ allVoc)) m [] tokens
  (dedupLoop [] kept).drop 1

/-- Number of whitespace-separated tokens of a line. -/
def countWords (l : List Char) : Nat := (splitWs l).length

/-- Shallow embedding of prep_data_for_tokenizer, lines 34 to 182, with the
two file contents passed as text and the lemmatizer as a function parameter.
The list accesses that can fall out of range, namely the two five-element
previews at lines 76 to 79 and 108 to 111, the header pop at line 114, the
preview at lines 173 to 176 and the final pop at lines 178 to 180, are
modelled by explicit bounds checks that return none exactly when the Python
code would raise an IndexError. -/
def prepPipeline (lem : Tok → Tok) (vocabText sourceText : List Char) (m : Int) :
    Option (List (List Char)) :=
  let st := cleanQuotes (commasToSpaces sourceText)
  let sourceLines := splitNl st
  if 6 ≤ sourceLines.length then
    let lemLines := sourceLines.map (lemLine lem)
    if 6 ≤ lemLines.length then
      if lemLines.isEmpty then none
      else
        let rest := lemLines.tail
        let vocabTokens := splitWs vocabText
        let lemmatizedTokens := splitWs rest.flatten
        let allTokensInVocab := lemmatizedTokens.filter (fun w => decide (w ∈ vocabTokens))
        let refined := rest.map (filterLine allTokensInVocab m)
        if 5 ≤ refined.length then
          if refined.isEmpty then none else some refined.dropLast
        else none
    else none
  else none

/-- One counting step of collections.Counter: increment the count of a token,
first-encounter order preserved. -/
def bump (t : Tok) : List (Tok × Nat) → List (Tok × Nat)
  | [] => [(t, 1)]
  | (u, c) :: rest => if u = t then (u, c + 1) :: rest else (u, c) :: bump t rest

/-- Fold of bump over a token list. -/
def tallyAux : List (Tok × Nat) → List Tok → List (Tok × Nat)
  | acc, [] => acc
  | acc, t :: ts => tallyAux (bump t acc) ts

/-- The Counter of vocab_builder: occurrence counts in first-encounter
order. -/
def tally (l : List Tok) : List (Tok × Nat) := tallyAux [] l

/-- The denylist removed at lines 74 to 78 of vocab_builder. -/
def denylist : List Tok := ["crude".data, "rude".data, "offensive".data, "etc".data]

/-- Stable descending insertion by count: an element is placed before the
first entry whose count it reaches, so entries with equal counts keep their
original relative order. -/
def insDesc (x : Tok × Nat) : List (Tok × Nat) → List (Tok × Nat)
  | [] => [x]
  | y :: ys => if y.2 ≤ x.2 then x :: y :: ys else y :: insDesc x ys

/-- Stable sort by count descending, the order produced by
Counter.most_common: most frequent first, ties in first-encounter order. -/
def sortCountDesc : List (Tok × Nat) → List (Tok × Nat)
  | [] => []
  | x :: xs => insDesc x (sortCountDesc xs)

/-- The pruned counter of vocab_builder, lines 62 to 94: counts of the
normalized tokens, then denylist removal, single-character removal and
minimum-occurrence removal, each preserving order. -/
def prunedCounter (tokenize : List Char → List Tok) (lem : Tok → Tok)
    (text : List Char) (minOccur : Int) : List (Tok × Nat) :=
  let lemmatized := (tokenize text).map (vbNormalize lem)
  let c1 := tally lemmatized
  let c2 := c1.filter (fun p => decide (p.1 ∉ denylist))
  let c3 := c2.filter (fun p => decide (p.1.length ≠ 1))
  c3.filter (fun p => decide (¬ ((p.2 : Int) < minOccur)))

/-- The frequency-selected tokens: Counter.most_common with the cap, lines 99
to 110 of vocab_builder.  A non-positive cap selects nothing, as the Python
nlargest does. -/
def selectedTokens (tokenize : List Char → List Tok) (lem : Tok → Tok)
    (text : List Char) (minOccur maxTkns : Int) : List Tok :=
  ((sortCountDesc (prunedCounter tokenize lem text minOccur)).take maxTkns.toNat).map Prod.fst

/-- The first mandatory token of vocab_builder. -/
def criticalTok : Tok := "critical".data

/-- The second mandatory token of vocab_builder. -/
def importantTok : Tok := "important".data

/-- The third mandatory token of vocab_builder. -/
def necessaryTok : Tok := "necessary".data

/-- Lines 112 to 123 of vocab_builder: append each mandatory token that is
not already present. -/
def finalVocabTokens (tokenize : List Char → List Tok) (lem : Tok → Tok)
    (text : List Char) (minOccur maxTkns : Int) : List Tok :=
  let f0 := selectedTokens tokenize lem text minOccur maxTkns
  let f1 := if criticalTok ∈ f0 then f0 else f0 ++ [criticalTok]
  let f2 := if importantTok ∈ f1 then f1 else f1 ++ [importantTok]
  if necessaryTok ∈ f2 then f2 else f2 ++ [necessaryTok]

/-- Newline-joining of the final token list, line 130 of vocab_builder. -/
def joinNl : List Tok → List Char
  | [] => []
  | [t] => t
  | t :: ts => t ++ '\n' :: joinNl ts

/-- Shallow embedding of build_vocabulary, lines 30 to 135 of vocab_builder:
returns the newline-joined vocabulary string and the final token count. -/
def build_vocabulary (tokenize : List Char → List Tok) (lem : Tok → Tok)
    (text : List Char) (minOccur maxTkns : Int) : List Char × Nat :=
  (joinNl (finalVocabTokens tokenize lem text minOccur maxTkns),
   (finalVocabTokens tokenize lem text minOccur maxTkns).length)

/-- The number of mandatory tokens that the frequency selection did not
already pick. -/
def missingMandatory (tokenize : List Char → List Tok) (lem : Tok → Tok)
    (text : List Char) (minOccur maxTkns : Int) : Nat :=
  ([criticalTok, importantTok, necessaryTok].filter
    (fun t => decide (t ∉ selectedTokens tokenize lem text minOccur maxTkns))).length

/-- A small concrete lemmatizer used to evaluate the embedding on concrete
inputs: it reduces the plural look-alike token as to a, which is the very
behaviour the source comment at line 98 of prep_data_for_tokenizer shields
against, reduces cats to cat, and fixes every other token. -/
def demoLemmatize (t : Tok) : Tok :=
  if t = "as".data then "a".data
  else if t = "cats".data then "cat".data
  else t

/-- Space-prefixed concatenation: the exact shape the dedup loop gives the
accumulated line, a space before every appended token. -/
def spJoin (l : List Tok) : List Char := (l.map (fun t => ' ' :: t)).flatten

/-- Concrete vocabulary text used to evaluate the per-line cap. -/
def c1Vocab : List Char := "a b".data

/-- Concrete dataset text used to evaluate the per-line cap: a header line
and six identical content lines, the last segment empty because the text
ends with a newline. -/
def c1Src : List Char := "h\na b\na b\na b\na b\na b\n".data

/-- Concrete vocabulary text with two tokens, one a substring of the other. -/
def c3Vocab : List Char := "catalog cat".data

/-- Concrete dataset text whose lines hold both vocabulary tokens. -/
def c3Src : List Char :=
  "h\ncatalog cat\ncatalog cat\ncatalog cat\ncatalog cat\ncatalog cat\n".data

/-- Concrete vocabulary text for the trailing-pop evaluation. -/
def c4Vocab : List Char := "a".data

/-- Concrete dataset text that does not end with a newline, so the final
segment is a real, non-empty content line. -/
def c4Src : List Char := "h\na a\na a\na a\na a\na a\na a".data

/-- Concrete corpus text for the vocabulary-builder evaluations. -/
def c2Text : List Char := "cat cat dog".data

/-- Concrete corpus text with six eligible distinct tokens and none of the
mandatory tokens. -/
def c7Text : List Char := "alpha beta gamma delta epsilon zeta".data

/-- Concrete raw dataset text holding one CSV-quoted field with an embedded
doubled quote, the shape described by the comment at lines 61 to 63 of
prep_data_for_tokenizer. -/
def c8Raw : List Char := "\"6\"\" tortilla\"".data

/-- Concrete raw text holding a doubled quote marker. -/
def c10A : List Char := "6\"\" tortilla".data

/-- Concrete raw text holding the literal sentinel word instead. -/
def c10B : List Char := "6doublequote tortilla".data

/-! Helper lemmas about the embedded Python primitives. -/

theorem toNat_ofNatAux (n : Nat) (h : n.isValidChar) : (Char.ofNatAux n h).toNat = n := rfl

theorem toNat_lowerChar (c : Char) :
    (lowerChar c).toNat = if 65 ≤ c.toNat ∧ c.toNat ≤ 90 then c.toNat + 32 else c.toNat := by
  unfold lowerChar
  split
  · rw [toNat_ofNatAux]
  · rfl

theorem lowerChar_eq_self (c : Char) (h : ¬ (65 ≤ c.toNat ∧ c.toNat ≤ 90)) :
    lowerChar c = c := by
  unfold lowerChar
  rw [dif_neg h]

theorem lowerChar_idem (c : Char) : lowerChar (lowerChar c) = lowerChar c := by
  by_cases h : 65 ≤ c.toNat ∧ c.toNat ≤ 90
  · apply lowerChar_eq_self
    rw [toNat_lowerChar, if_pos h]
    omega
  · rw [lowerChar_eq_self c h, lowerChar_eq_self c h]

theorem lowerL_idem (t : Tok) : lowerL (lowerL t) = lowerL t := by
  induction t with
  | nil => rfl
  | cons c cs ih =>
    simpa [lowerL] using And.intro (lowerChar_idem c) (by simpa [lowerL] using ih)

theorem splitWs_cons_ws {c : Char} (xs : List Char) (h : isWs c = true) :
    splitWs (c :: xs) = splitWs xs := by
  conv_lhs => rw [splitWs.eq_def]
  simp [h]

theorem splitWs_singleton {c : Char} (h : isWs c = false) : splitWs [c] = [[c]] := by
  conv_lhs => rw [splitWs]
  simp [h]

theorem splitWs_cons_cons_ws {c d : Char} (xs : List Char)
    (hc : isWs c = false) (hd : isWs d = true) :
    splitWs (c :: d :: xs) = [c] :: splitWs (d :: xs) := by
  conv_lhs => rw [splitWs]
  simp [hc, hd]

theorem splitWs_cons_cons_run {c d : Char} (xs : List Char) {t : Tok} {ts : List Tok}
    (hc : isWs c = false) (hd : isWs d = false) (h : splitWs (d :: xs) = t :: ts) :
    splitWs (c :: d :: xs) = (c :: t) :: ts := by
  conv_lhs => rw [splitWs]
  simp [hc, hd, h]

theorem splitWs_ne_nil (xs : List Char) : ∀ c : Char, isWs c = false → splitWs (c :: xs) ≠ [] := by
  induction xs with
  | nil =>
    intro c hc
    rw [splitWs_singleton hc]
    simp
  | cons d xs' ih =>
    intro c hc
    by_cases hd : isWs d
    · rw [splitWs_cons_cons_ws xs' hc (by simpa using hd)]
      simp
    · rcases hs : splitWs (d :: xs') with _ | ⟨u, us⟩
      · exact absurd hs (ih d (by simpa using hd))
      · rw [splitWs_cons_cons_run xs' hc (by simpa using hd) hs]
        simp

theorem splitWs_wf (l : List Char) :
    ∀ t ∈ splitWs l, t ≠ [] ∧ ∀ c ∈ t, isWs c = false := by
  induction l with
  | nil => intro t ht; simp [splitWs] at ht
  | cons c xs ih =>
    intro t ht
    by_cases hc : isWs c
    · rw [splitWs_cons_ws xs hc] at ht
      exact ih t ht
    · cases xs with
      | nil =>
        rw [splitWs_singleton (by simpa using hc)] at ht
        simp at ht
        subst ht
        refine ⟨by simp, ?_⟩
        intro a ha
        simp at ha
        subst ha
        simpa using hc
      | cons d xs' =>
        by_cases hd : isWs d
        · rw [splitWs_cons_cons_ws xs' (by simpa using hc) hd] at ht
          rcases List.mem_cons.mp ht with h1 | h1
          · subst h1
            exact ⟨by simp, by intro a ha; simp at ha; subst ha; simpa using hc⟩
          · exact ih t h1
        · rcases hs : splitWs (d :: xs') with _ | ⟨u, us⟩
          · exact absurd hs (splitWs_ne_nil xs' d (by simpa using hd))
          · rw [splitWs_cons_cons_run xs' (by simpa using hc) (by simpa using hd) hs] at ht
            rcases List.mem_cons.mp ht with h1 | h1
            · subst h1
              have hu := ih u (by rw [hs]; exact List.mem_cons_self u us)
              refine ⟨by simp, ?_⟩
              intro a ha
              rcases List.mem_cons.mp ha with h2 | h2
              · subst h2; simpa using hc
              · exact hu.2 a h2
            · exact ih t (by rw [hs]; exact List.mem_cons_of_mem u h1)

theorem splitWs_token (t : Tok) (h1 : t ≠ []) (h2 : ∀ c ∈ t, isWs c = false) :
    splitWs t = [t] := by
  induction t with
  | nil => exact absurd rfl h1
  | cons c t' ih =>
    cases t' with
    | nil => exact splitWs_singleton (h2 c (by simp))
    | cons c2 t'' =>
      have hrun := ih (by simp) (fun a ha => h2 a (List.mem_cons_of_mem c ha))
      exact splitWs_cons_cons_run _ (h2 c (by simp))
        (h2 c2 (by simp)) hrun

theorem splitWs_append_space (t : Tok) (s : List Char)
    (h1 : t ≠ []) (h2 : ∀ c ∈ t, isWs c = false) :
    splitWs (t ++ ' ' :: s) = t :: splitWs s := by
  induction t with
  | nil => exact absurd rfl h1
  | cons c t' ih =>
    cases t' with
    | nil =>
      have hc : isWs c = false := h2 c (by simp)
      have : splitWs (c :: ' ' :: s) = [c] :: splitWs (' ' :: s) :=
        splitWs_cons_cons_ws s hc (by decide)
      rw [List.cons_append, List.nil_append, this, splitWs_cons_ws s (by decide)]
    | cons c2 t'' =>
      have hc : isWs c = false := h2 c (by simp)
      have hc2 : isWs c2 = false := h2 c2 (by simp)
      have hrun := ih (by simp) (fun a ha => h2 a (List.mem_cons_of_mem c ha))
      simp only [List.cons_append] at hrun ⊢
      exact splitWs_cons_cons_run _ hc hc2 hrun

theorem splitWs_spJoin (t : Tok) (l : List Tok)
    (h : ∀ u ∈ t :: l, u ≠ [] ∧ ∀ c ∈ u, isWs c = false) :
    splitWs (t ++ spJoin l) = t :: l := by
  induction l generalizing t with
  | nil =>
    have ht := h t (by simp)
    simpa [spJoin] using splitWs_token t ht.1 ht.2
  | cons u l' ih =>
    have ht := h t (by simp)
    have hrest : splitWs (u ++ spJoin l') = u :: l' := by
      apply ih u
      intro v hv
      exact h v (List.mem_cons_of_mem t hv)
    have hshape : t ++ spJoin (u :: l') = t ++ ' ' :: (u ++ spJoin l') := by
      simp [spJoin]
    rw [hshape, splitWs_append_space t _ ht.1 ht.2, hrest]

theorem splitWs_drop_spJoin (l : List Tok)
    (h : ∀ u ∈ l, u ≠ [] ∧ ∀ c ∈ u, isWs c = false) :
    splitWs ((spJoin l).drop 1) = l := by
  cases l with
  | nil => simp [spJoin, splitWs]
  | cons t l' =>
    have : (spJoin (t :: l')).drop 1 = t ++ spJoin l' := by
      simp [spJoin]
    rw [this]
    exact splitWs_spJoin t l' h

theorem keepLoop_length_le (voc : Tok → Bool) (m : Int) :
    ∀ (ts acc : List Tok), (acc.length : Int) ≤ max (m + 1) 0 →
      ((keepLoop voc m acc ts).length : Int) ≤ max (m + 1) 0 := by
  intro ts
  induction ts with
  | nil => intro acc h; simpa [keepLoop] using h
  | cons t ts ih =>
    intro acc h
    rw [keepLoop]
    by_cases hb : (acc.length : Int) > m
    · simpa [hb] using h
    · simp only [hb, if_false]
      by_cases hv : voc t
      · simp only [hv, if_true]
        apply ih
        simp only [List.length_append, List.length_cons, List.length_nil]
        push_cast
        omega
      · simp only [hv, if_false]
        exact ih acc h

theorem keepLoop_subset (voc : Tok → Bool) (m : Int) :
    ∀ (ts acc : List Tok) (x : Tok), x ∈ keepLoop voc m acc ts → x ∈ acc ∨ x ∈ ts := by
  intro ts
  induction ts with
  | nil => intro acc x h; rw [keepLoop] at h; exact Or.inl h
  | cons t ts ih =>
    intro acc x h
    rw [keepLoop] at h
    by_cases hb : (acc.length : Int) > m
    · rw [if_pos hb] at h
      exact Or.inl h
    · rw [if_neg hb] at h
      by_cases hv : voc t
      · rw [if_pos hv] at h
        rcases ih (acc ++ [t]) x h with h1 | h1
        · rcases List.mem_append.mp h1 with h2 | h2
          · exact Or.inl h2
          · simp at h2
            exact Or.inr (by simp [h2])
        · exact Or.inr (List.mem_cons_of_mem t h1)
      · rw [if_neg hv] at h
        rcases ih acc x h with h1 | h1
        · exact Or.inl h1
        · exact Or.inr (List.mem_cons_of_mem t h1)

theorem isPref_refl (l : List Char) : isPref l l = true := by
  induction l with
  | nil => rfl
  | cons c cs ih => simp [isPref, ih]

theorem isPref_append_right (p l l' : List Char) (h : isPref p l = true) :
    isPref p (l ++ l') = true := by
  induction p generalizing l with
  | nil => rfl
  | cons a as ih =>
    cases l with
    | nil => simp [isPref] at h
    | cons b bs =>
      simp only [isPref, Bool.and_eq_true, decide_eq_true_eq] at h
      simp only [List.cons_append, isPref, Bool.and_eq_true, decide_eq_true_eq]
      exact ⟨h.1, ih bs h.2⟩

theorem occursSub_nil_pat (l : List Char) : occursSub [] l = true := by
  cases l with
  | nil => rfl
  | cons c xs => simp [occursSub, isPref]

theorem occursSub_append_left (p l l' : List Char) (h : occursSub p l = true) :
    occursSub p (l ++ l') = true := by
  induction l with
  | nil =>
    simp only [occursSub, List.isEmpty_iff] at h
    subst h
    exact occursSub_nil_pat l'
  | cons c xs ih =>
    simp only [occursSub, Bool.or_eq_true] at h
    rcases h with h1 | h1
    · simp only [List.cons_append, occursSub, Bool.or_eq_true]
      exact Or.inl (by simpa using isPref_append_right p (c :: xs) l' h1)
    · simp only [List.cons_append, occursSub, Bool.or_eq_true]
      exact Or.inr (ih h1)

theorem occursSub_append_right (p l l' : List Char) (h : occursSub p l' = true) :
    occursSub p (l ++ l') = true := by
  induction l with
  | nil => simpa using h
  | cons c xs ih =>
    simp only [List.cons_append, occursSub, Bool.or_eq_true]
    exact Or.inr ih

theorem occursSub_self (t : List Char) : occursSub t t = true := by
  cases t with
  | nil => rfl
  | cons c xs => simp [occursSub, isPref_refl]

theorem occursSub_sp_self (t : Tok) : occursSub t (' ' :: t) = true := by
  have : occursSub t (' ' :: t) = (isPref t (' ' :: t) || occursSub t t) := by
    rw [occursSub]
  rw [this, occursSub_self]
  simp

theorem dedupLoop_eq :
    ∀ (ts : List Tok) (refined : List Char),
      dedupLoop refined ts = refined ++ spJoin (dedupSelect refined ts) := by
  intro ts
  induction ts with
  | nil => intro refined; simp [dedupLoop, dedupSelect, spJoin]
  | cons t ts ih =>
    intro refined
    rw [dedupLoop, dedupSelect]
    by_cases h : occursSub t refined
    · rw [if_pos h, if_pos h, ih]
    · rw [if_neg h, if_neg h, ih]
      simp [spJoin]

theorem dedupSelect_sublist :
    ∀ (ts : List Tok) (refined : List Char), List.Sublist (dedupSelect refined ts) ts := by
  intro ts
  induction ts with
  | nil => intro refined; simp [dedupSelect]
  | cons t ts ih =>
    intro refined
    rw [dedupSelect]
    by_cases h : occursSub t refined
    · rw [if_pos h]
      exact List.Sublist.cons t (ih refined)
    · rw [if_neg h]
      exact List.Sublist.cons₂ t (ih (refined ++ ' ' :: t))

theorem dedupSelect_nodup :
    ∀ (ts : List Tok) (refined : List Char),
      (dedupSelect refined ts).Nodup ∧
      ∀ t : Tok, occursSub t refined = true → t ∉ dedupSelect refined ts := by
  intro ts
  induction ts with
  | nil => intro refined; simp [dedupSelect]
  | cons t ts ih =>
    intro refined
    rw [dedupSelect]
    by_cases h : occursSub t refined
    · rw [if_pos h]
      exact ih refined
    · rw [if_neg h]
      have hself : occursSub t (refined ++ ' ' :: t) = true :=
        occursSub_append_right t refined (' ' :: t) (occursSub_sp_self t)
      constructor
      · refine List.nodup_cons.mpr ⟨?_, (ih (refined ++ ' ' :: t)).1⟩
        exact (ih (refined ++ ' ' :: t)).2 t hself
      · intro u hu
        have hut : u ≠ t := by
          intro he
          subst he
          exact h hu
        have hu' : occursSub u (refined ++ ' ' :: t) = true :=
          occursSub_append_left u refined (' ' :: t) hu
        intro hmem
        rcases List.mem_cons.mp hmem with h1 | h1
        · exact hut h1
        · exact (ih (refined ++ ' ' :: t)).2 u hu' h1

theorem splitWs_filterLine (allVoc : List Tok) (m : Int) (line : List Char) :
    splitWs (filterLine allVoc m line) =
      dedupSelect [] (keepLoop (fun t => decide (t ∈ allVoc)) m [] (splitWs line)) := by
  have hkept : ∀ t ∈ keepLoop (fun t => decide (t ∈ allVoc)) m [] (splitWs line),
      t ≠ [] ∧ ∀ c ∈ t, isWs c = false := by
    intro t ht
    rcases keepLoop_subset (fun t => decide (t ∈ allVoc)) m (splitWs line) [] t ht with h1 | h1
    · simp at h1
    · exact splitWs_wf line t h1
  have hsel : ∀ t ∈ dedupSelect []
      (keepLoop (fun t => decide (t ∈ allVoc)) m [] (splitWs line)),
      t ≠ [] ∧ ∀ c ∈ t, isWs c = false := by
    intro t ht
    exact hkept t
      ((dedupSelect_sublist (keepLoop (fun t => decide (t ∈ allVoc)) m [] (splitWs line))
        []).subset ht)
  have hfl : filterLine allVoc m line =
      (spJoin (dedupSelect []
        (keepLoop (fun t => decide (t ∈ allVoc)) m [] (splitWs line)))).drop 1 := by
    rw [filterLine]
    rw [dedupLoop_eq]
    simp
  rw [hfl]
  exact splitWs_drop_spJoin _ hsel

theorem countWords_filterLine_le (allVoc : List Tok) (m : Int) (line : List Char) :
    (countWords (filterLine allVoc m line) : Int) ≤ max (m + 1) 0 := by
  rw [countWords, splitWs_filterLine]
  have h1 : (dedupSelect [] (keepLoop (fun t => decide (t ∈ allVoc)) m [] (splitWs line))).length
      ≤ (keepLoop (fun t => decide (t ∈ allVoc)) m [] (splitWs line)).length :=
    (dedupSelect_sublist _ _).length_le
  have h2 : ((keepLoop (fun t => decide (t ∈ allVoc)) m [] (splitWs line)).length : Int)
      ≤ max (m + 1) 0 :=
    keepLoop_length_le _ m (splitWs line) [] (by simp)
  omega

theorem prepPipeline_mem (lem : Tok → Tok) (vocabText sourceText : List Char) (m : Int)
    (out : List (List Char)) (h : prepPipeline lem vocabText sourceText m = some out) :
    ∀ L ∈ out, ∃ (A : List Tok) (line : List Char), L = filterLine A m line := by
  intro L hL
  rw [prepPipeline] at h
  simp only [] at h
  split at h
  · split at h
    · split at h
      · exact absurd h (by simp)
      · split at h
        · split at h
          · exact absurd h (by simp)
          · have hout := (Option.some.inj h).symm
            rw [hout] at hL
            have hL2 := (List.dropLast_sublist _).subset hL
            rcases List.mem_map.mp hL2 with ⟨line, _, hline⟩
            exact ⟨_, line, hline.symm⟩
        · exact absurd h (by simp)
    · exact absurd h (by simp)
  · exact absurd h (by simp)

/-! Claim theorems. -/

/-- C1 counterexample: with max_tokens_per_line set to 1, the pipeline
produces the filtered line a b, which holds 2 tokens.  The candidate-count
check at line 156 runs before the append at line 159, so a line can keep
one token more than the cap. -/
theorem c1_counterexample :
    prepPipeline id c1Vocab c1Src 1 =
      some ["a b".data, "a b".data, "a b".data, "a b".data, "a b".data] ∧
    countWords ("a b".data) = 2 := by
  constructor
  · decide
  · decide

/-- C1 amended: every filtered output line of prep_data_for_tokenizer holds
at most max_tokens_per_line + 1 tokens (and at least 0), not
max_tokens_per_line: the scan stops only after the kept-candidate count has
already exceeded the cap. -/
theorem c1_amended (lem : Tok → Tok) (vocabText sourceText : List Char) (m : Int)
    (out : List (List Char)) (h : prepPipeline lem vocabText sourceText m = some out) :
    ∀ L ∈ out, (countWords L : Int) ≤ max (m + 1) 0 := by
  intro L hL
  rcases prepPipeline_mem lem vocabText sourceText m out h L hL with ⟨A, line, hline⟩
  rw [hline]
  exact countWords_filterLine_le A m line

/-- C1 witness for the amended bound, at the concrete run of the
counterexample input. -/
theorem c1_amended_witness :
    prepPipeline id c1Vocab c1Src 1 =
      some ["a b".data, "a b".data, "a b".data, "a b".data, "a b".data] ∧
    (countWords ("a b".data) : Int) ≤ max (1 + 1 : Int) 0 := by
  refine ⟨by decide, ?_⟩
  exact c1_amended id c1Vocab c1Src 1
    ["a b".data, "a b".data, "a b".data, "a b".data, "a b".data]
    (by decide) ("a b".data) (by decide)

/-- C3 counterexample: in the line catalog cat, both tokens are kept
candidates, no token equal to cat is ever present in the output, yet cat is
omitted, because the dedup test at line 161 is Python substring containment
on the joined line and cat occurs inside catalog.  The full pipeline shows
the same loss. -/
theorem c3_counterexample :
    keepLoop (fun t => decide (t ∈ ["catalog".data, "cat".data])) 5 []
        (splitWs ("catalog cat".data)) = ["catalog".data, "cat".data] ∧
    splitWs (filterLine ["catalog".data, "cat".data] 5 ("catalog cat".data)) =
      ["catalog".data] ∧
    "cat".data ≠ "catalog".data ∧
    prepPipeline id c3Vocab c3Src 5 =
      some ["catalog".data, "catalog".data, "catalog".data, "catalog".data, "catalog".data] := by
  refine ⟨by decide, by decide, by decide, by decide⟩

/-- C3 amended: the dedup loop omits a kept candidate exactly when it occurs
as a substring of the output line built so far, so the output tokens are
duplicate-free and form a subsequence, in first-occurrence order, of the kept
candidates; but a distinct kept candidate that is a substring of an earlier
kept token is also dropped. -/
theorem c3_amended (allVoc : List Tok) (m : Int) (line : List Char) :
    (splitWs (filterLine allVoc m line)).Nodup ∧
    List.Sublist (splitWs (filterLine allVoc m line))
      (keepLoop (fun t => decide (t ∈ allVoc)) m [] (splitWs line)) := by
  rw [splitWs_filterLine]
  exact ⟨(dedupSelect_nodup _ []).1, dedupSelect_sublist _ []⟩

/-- C4: the pop at lines 178 to 180 of prep_data_for_tokenizer is
unconditional.  On this input the text does not end with a newline, the last
filtered line is the non-empty a, and the returned output nevertheless holds
only the first five of the six content lines: the non-empty final line is
lost. -/
theorem c4_unconditional_pop_drops_nonempty_line :
    prepPipeline id c4Vocab c4Src 5 =
      some ["a".data, "a".data, "a".data, "a".data, "a".data] ∧
    filterLine ["a".data] 5 (lemLine id ("a a".data)) = "a".data ∧
    "a".data ≠ ([] : List Char) := by
  refine ⟨by decide, by decide, by decide⟩

/-- C5 counterexample: on the token as, whose lowercase form is in the
exception list, the two normalizations disagree as soon as the lemmatizer
moves as, which is the very behaviour the comment at line 98 of
prep_data_for_tokenizer guards against: vocab_builder still lemmatizes it,
the corpus filter does not. -/
theorem c5_counterexample :
    vbNormalize demoLemmatize ("as".data) ≠ normalizeTok demoLemmatize ("as".data) ∧
    vbNormalize demoLemmatize ("as".data) = "a".data ∧
    normalizeTok demoLemmatize ("as".data) = "as".data := by
  refine ⟨by decide, by decide, by decide⟩

/-- C5 amended: the two per-token normalizations agree on every token whose
lowercase form is outside the exception list of prep_data_for_tokenizer; they
differ exactly on exception tokens that the lemmatizer changes, since
vocab_builder, lines 57 to 60, has no exception list. -/
theorem c5_amended (lem : Tok → Tok) (t : Tok) (h : lowerL t ∉ cooExceptions) :
    vbNormalize lem t = normalizeTok lem t := by
  rw [vbNormalize, normalizeTok]
  simp only [if_neg h]

/-- C5 witness for the amended agreement, at a concrete token outside the
exception list. -/
theorem c5_amended_witness :
    lowerL ("Cats".data) ∉ cooExceptions ∧
    vbNormalize demoLemmatize ("Cats".data) = normalizeTok demoLemmatize ("Cats".data) := by
  refine ⟨by decide, ?_⟩
  exact c5_amended demoLemmatize ("Cats".data) (by decide)

/-- C6: normalization, lowercase then lemmatize-unless-excepted, is
idempotent whenever the lemmatizer keeps its own output on the token stable,
that is, the lemmatized form is already lowercase and lemmatizing it again
changes nothing.  Those two facts about the external lemmatizer are the
hypotheses; everything else is proved from the embedding. -/
theorem c6_normalize_idempotent (lem : Tok → Tok) (t : Tok)
    (h1 : lowerL (lem (lowerL t)) = lem (lowerL t))
    (h2 : lem (lem (lowerL t)) = lem (lowerL t)) :
    normalizeTok lem (normalizeTok lem t) = normalizeTok lem t := by
  simp only [normalizeTok]
  by_cases hm : lowerL t ∈ cooExceptions
  · simp [hm, lowerL_idem]
  · simp only [if_neg hm]
    rw [h1]
    by_cases hm2 : lem (lowerL t) ∈ cooExceptions
    · simp only [if_pos hm2]
    · simp only [if_neg hm2]
      exact h2

/-- C6 witness: the idempotence hypotheses hold for the demo lemmatizer at
the token Cats, and the conclusion follows by the theorem. -/
theorem c6_normalize_idempotent_witness :
    lowerL (demoLemmatize (lowerL ("Cats".data))) = demoLemmatize (lowerL ("Cats".data)) ∧
    demoLemmatize (demoLemmatize (lowerL ("Cats".data))) = demoLemmatize (lowerL ("Cats".data)) ∧
    normalizeTok demoLemmatize (normalizeTok demoLemmatize ("Cats".data)) =
      normalizeTok demoLemmatize ("Cats".data) := by
  refine ⟨by decide, by decide, ?_⟩
  exact c6_normalize_idempotent demoLemmatize ("Cats".data) (by decide) (by decide)

/-- C8: the quote cleanup round-trips the intentionally embedded quote: on
the CSV-quoted field holding 6 inch tortilla, the doubled quote marker
becomes the sentinel, the lone field quotes are stripped, and the sentinel is
restored, so the quote character is still present in the cleaned line and
survives the per-line lemmatization untouched. -/
theorem c8_embedded_quote_preserved :
    cleanQuotes (commasToSpaces c8Raw) = "6\" tortilla".data ∧
    lemLine id ("6\" tortilla".data) = "6\" tortilla".data ∧
    '"' ∈ cleanQuotes (commasToSpaces c8Raw) := by
  refine ⟨by decide, by decide, by decide⟩

/-- C10: the quote cleanup is not injective: the raw text that contains a
doubled quote and the raw text that instead contains the literal sentinel
word doublequote are different inputs with the same cleaned output, because
the sentinel word itself is rewritten to a quote character by the third
replacement loop. -/
theorem c10_cleanup_not_injective :
    cleanQuotes c10A = cleanQuotes c10B ∧
    c10A ≠ c10B ∧
    occursSub dqWord c10B = true ∧
    cleanQuotes c10B = "6\" tortilla".data := by
  refine ⟨by decide, by decide, by decide, by decide⟩

theorem insDesc_length (x : Tok × Nat) (l : List (Tok × Nat)) :
    (insDesc x l).length = l.length + 1 := by
  induction l with
  | nil => rfl
  | cons y ys ih =>
    rw [insDesc]
    by_cases h : y.2 ≤ x.2
    · simp [h]
    · simp only [h, if_false, List.length_cons, ih]

theorem sortCountDesc_length (l : List (Tok × Nat)) :
    (sortCountDesc l).length = l.length := by
  induction l with
  | nil => rfl
  | cons x xs ih => rw [sortCountDesc, insDesc_length, ih, List.length_cons]

theorem selectedTokens_length_le (tokenize : List Char → List Tok) (lem : Tok → Tok)
    (text : List Char) (minOccur maxTkns : Int) :
    (selectedTokens tokenize lem text minOccur maxTkns).length ≤ maxTkns.toNat := by
  rw [selectedTokens, List.length_map, List.length_take]
  exact Nat.min_le_left _ _

theorem finalVocab_mem_mandatory (tokenize : List Char → List Tok) (lem : Tok → Tok)
    (text : List Char) (minOccur maxTkns : Int) :
    criticalTok ∈ finalVocabTokens tokenize lem text minOccur maxTkns ∧
    importantTok ∈ finalVocabTokens tokenize lem text minOccur maxTkns ∧
    necessaryTok ∈ finalVocabTokens tokenize lem text minOccur maxTkns := by
  have hstep : ∀ (a : Tok) (l : List Tok), a ∈ (if a ∈ l then l else l ++ [a]) := by
    intro a l
    by_cases h : a ∈ l <;> simp [h]
  have hmono : ∀ (a b : Tok) (l : List Tok), a ∈ l → a ∈ (if b ∈ l then l else l ++ [b]) := by
    intro a b l h
    by_cases hb : b ∈ l <;> simp [h, hb]
  rw [finalVocabTokens]
  refine ⟨hmono _ _ _ (hmono _ _ _ (hstep _ _)), hmono _ _ _ (hstep _ _), hstep _ _⟩

theorem finalVocab_length (tokenize : List Char → List Tok) (lem : Tok → Tok)
    (text : List Char) (minOccur maxTkns : Int) :
    (finalVocabTokens tokenize lem text minOccur maxTkns).length =
      (selectedTokens tokenize lem text minOccur maxTkns).length +
        missingMandatory tokenize lem text minOccur maxTkns := by
  have hic : importantTok ≠ criticalTok := by decide
  have hnc : necessaryTok ≠ criticalTok := by decide
  have hni : necessaryTok ≠ importantTok := by decide
  by_cases hc : criticalTok ∈ selectedTokens tokenize lem text minOccur maxTkns <;>
    by_cases hi : importantTok ∈ selectedTokens tokenize lem text minOccur maxTkns <;>
    by_cases hn : necessaryTok ∈ selectedTokens tokenize lem text minOccur maxTkns <;>
    simp [finalVocabTokens, missingMandatory, hc, hi, hn, hic, hnc, hni, List.filter]

/-- C7: for every corpus and parameters the final vocabulary contains all
three mandatory tokens and is no longer than the cap plus the number of
mandatory tokens the frequency selection missed; and on the concrete corpus
with six eligible tokens, cap 5 and all mandatory tokens absent, the
returned count is 5 + 3 = 8. -/
theorem c7_vocab_bound_mandatory_concrete :
    (∀ (tokenize : List Char → List Tok) (lem : Tok → Tok) (text : List Char)
        (minOccur maxTkns : Int),
      criticalTok ∈ finalVocabTokens tokenize lem text minOccur maxTkns ∧
      importantTok ∈ finalVocabTokens tokenize lem text minOccur maxTkns ∧
      necessaryTok ∈ finalVocabTokens tokenize lem text minOccur maxTkns ∧
      (finalVocabTokens tokenize lem text minOccur maxTkns).length ≤
        maxTkns.toNat + missingMandatory tokenize lem text minOccur maxTkns) ∧
    (build_vocabulary splitWs id c7Text 1 5).2 = 8 ∧
    criticalTok ∉ splitWs c7Text ∧ importantTok ∉ splitWs c7Text ∧
    necessaryTok ∉ splitWs c7Text := by
  refine ⟨?_, by decide, by decide, by decide, by decide⟩
  intro tokenize lem text minOccur maxTkns
  rcases finalVocab_mem_mandatory tokenize lem text minOccur maxTkns with ⟨h1, h2, h3⟩
  refine ⟨h1, h2, h3, ?_⟩
  rw [finalVocab_length]
  have := selectedTokens_length_le tokenize lem text minOccur maxTkns
  omega

/-- C2 counterexample: a call with negative min_occurrence and zero
max_tokens is not rejected; build_vocabulary runs to completion and returns
a vocabulary, here just the three force-included mandatory tokens. -/
theorem c2_counterexample :
    build_vocabulary splitWs id c2Text (-1) 0 =
      ("critical\nimportant\nnecessary".data, 3) := by
  decide

/-- C2 amended: neither function validates its numeric parameters.  A
non-positive max_tokens silently yields exactly the three mandatory tokens,
whatever the corpus and the min_occurrence, and a non-positive
max_tokens_per_line is silently accepted by the filter, which then keeps at
most one token per line. -/
theorem c2_amended :
    (∀ (tokenize : List Char → List Tok) (lem : Tok → Tok) (text : List Char)
        (minOccur maxTkns : Int), maxTkns ≤ 0 →
      finalVocabTokens tokenize lem text minOccur maxTkns =
        [criticalTok, importantTok, necessaryTok]) ∧
    (∀ (lem : Tok → Tok) (vocabText sourceText : List Char) (m : Int)
        (out : List (List Char)), m ≤ 0 →
      prepPipeline lem vocabText sourceText m = some out →
      ∀ L ∈ out, countWords L ≤ 1) := by
  constructor
  · intro tokenize lem text minOccur maxTkns hle
    have h0 : maxTkns.toNat = 0 := Int.toNat_of_nonpos hle
    have hsel : selectedTokens tokenize lem text minOccur maxTkns = [] := by
      rw [selectedTokens, h0]
      simp
    rw [finalVocabTokens, hsel]
    simp
    decide
  · intro lem vocabText sourceText m out hm h L hL
    rcases prepPipeline_mem lem vocabText sourceText m out h L hL with ⟨A, line, hline⟩
    have := countWords_filterLine_le A m line
    rw [hline]
    omega

/-- C2 witness: the amended no-validation behaviour at concrete invalid
parameters, max_tokens 0 with min_occurrence negative for the builder and
max_tokens_per_line 0 for the filter. -/
theorem c2_amended_witness :
    finalVocabTokens splitWs id c2Text (-1) 0 = [criticalTok, importantTok, necessaryTok] ∧
    countWords ("a".data) ≤ 1 := by
  constructor
  · exact c2_amended.1 splitWs id c2Text (-1) 0 (by decide)
  · exact c2_amended.2 id c1Vocab c1Src 0
      ["a".data, "a".data, "a".data, "a".data, "a".data] (by decide) (by decide)
      ("a".data) (by decide)

theorem countNl_append (a b : List Char) : countNl (a ++ b) = countNl a + countNl b := by
  induction a with
  | nil => simp [countNl]
  | cons c xs ih => simp [countNl, ih]; omega

theorem countNl_eq_zero (l : List Char) (h : '\n' ∉ l) : countNl l = 0 := by
  induction l with
  | nil => rfl
  | cons c xs ih =>
    have hc : c ≠ '\n' := by
      intro he
      exact h (by simp [he])
    have hx : '\n' ∉ xs := fun hm => h (List.mem_cons_of_mem c hm)
    simp [countNl, hc, Ne.symm hc, ih hx]

theorem isPref_decomp (p : List Char) : ∀ l : List Char, isPref p l = true →
    l = p ++ l.drop p.length := by
  induction p with
  | nil => intro l _; simp
  | cons a as ih =>
    intro l h
    cases l with
    | nil => simp [isPref] at h
    | cons b bs =>
      simp only [isPref, Bool.and_eq_true, decide_eq_true_eq] at h
      rcases h with ⟨hab, hpref⟩
      subst hab
      have := ih bs hpref
      simp only [List.length_cons, List.cons_append, List.drop_succ_cons]
      exact congrArg (a :: ·) this

theorem countNl_replaceFuel (p : Char) (ps rep : List Char)
    (hp : '\n' ∉ p :: ps) (hr : '\n' ∉ rep) :
    ∀ (f : Nat) (l : List Char), countNl (replaceFuel p ps rep f l) = countNl l := by
  intro f
  induction f with
  | zero => intro l; cases l <;> rfl
  | succ f ih =>
    intro l
    cases l with
    | nil => rfl
    | cons c xs =>
      rw [replaceFuel]
      by_cases hpref : isPref (p :: ps) (c :: xs)
      · rw [if_pos hpref]
        have hdec : c :: xs = (p :: ps) ++ xs.drop ps.length := by
          have := isPref_decomp (p :: ps) (c :: xs) hpref
          simpa using this
        conv_rhs => rw [hdec]
        rw [countNl_append, countNl_append, ih, countNl_eq_zero rep hr,
          countNl_eq_zero (p :: ps) hp]
      · rw [if_neg hpref]
        simp [countNl, ih xs]

theorem countNl_whileRep (p : Char) (ps rep : List Char)
    (hp : '\n' ∉ p :: ps) (hr : '\n' ∉ rep) :
    ∀ (f : Nat) (l : List Char), countNl (whileRep p ps rep f l) = countNl l := by
  intro f
  induction f with
  | zero => intro l; rfl
  | succ f ih =>
    intro l
    rw [whileRep]
    by_cases h : occursSub (p :: ps) l
    · rw [if_pos h, ih, countNl_replaceFuel p ps rep hp hr]
    · rw [if_neg h]

theorem countNl_commasToSpaces (l : List Char) : countNl (commasToSpaces l) = countNl l := by
  induction l with
  | nil => rfl
  | cons c xs ih =>
    by_cases h : c = ','
    · subst h
      simp [commasToSpaces, countNl] at *
      simpa using ih
    · simp [commasToSpaces, countNl, h] at *
      simpa [h] using ih

theorem countNl_cleanQuotes (l : List Char) : countNl (cleanQuotes l) = countNl l := by
  rw [cleanQuotes]
  rw [countNl_whileRep _ _ _ (by decide) (by decide),
    countNl_whileRep _ _ _ (by decide) (by decide),
    countNl_whileRep _ _ _ (by decide) (by decide)]

theorem splitNl_cons_nl (xs : List Char) : splitNl ('\n' :: xs) = [] :: splitNl xs := by
  conv_lhs => rw [splitNl.eq_def]
  simp

theorem splitNl_cons_other (c : Char) (xs : List Char) (h : ¬ c = '\n')
    {t : Tok} {ts : List Tok} (hs : splitNl xs = t :: ts) :
    splitNl (c :: xs) = (c :: t) :: ts := by
  conv_lhs => rw [splitNl.eq_def]
  simp [h, hs]

theorem splitNl_ne_nil (l : List Char) : splitNl l ≠ [] := by
  induction l with
  | nil => simp [splitNl]
  | cons c xs ih =>
    by_cases h : c = '\n'
    · subst h
      rw [splitNl_cons_nl]
      simp
    · rcases hs : splitNl xs with _ | ⟨t, ts⟩
      · exact absurd hs ih
      · rw [splitNl_cons_other c xs h hs]
        simp

theorem splitNl_length (l : List Char) : (splitNl l).length = countNl l + 1 := by
  induction l with
  | nil => rfl
  | cons c xs ih =>
    by_cases h : c = '\n'
    · subst h
      rw [splitNl_cons_nl]
      simp [countNl, ih]
      omega
    · rcases hs : splitNl xs with _ | ⟨t, ts⟩
      · exact absurd hs (splitNl_ne_nil xs)
      · rw [splitNl_cons_other c xs h hs]
        rw [hs] at ih
        simp at ih
        simp [countNl, h, ih]

/-- C9: the pipeline reaches its return, none of its raw list accesses going
out of range, exactly when the source text splits into at least 6
newline-separated lines: the comma translation and the quote cleanup never
touch a newline, so the line count the previews index into is the line count
of the raw source text. -/
theorem c9_prep_total_iff_six_lines (lem : Tok → Tok) (vocabText sourceText : List Char)
    (m : Int) :
    (prepPipeline lem vocabText sourceText m).isSome = true ↔
      6 ≤ (splitNl sourceText).length := by
  have hlen : (splitNl (cleanQuotes (commasToSpaces sourceText))).length =
      (splitNl sourceText).length := by
    rw [splitNl_length, splitNl_length, countNl_cleanQuotes, countNl_commasToSpaces]
  rw [prepPipeline]
  simp only []
  by_cases h6 : 6 ≤ (splitNl (cleanQuotes (commasToSpaces sourceText))).length
  · rw [if_pos h6]
    have h6m : 6 ≤ ((splitNl (cleanQuotes (commasToSpaces sourceText))).map
        (lemLine lem)).length := by
      simpa using h6
    rw [if_pos h6m]
    have hne : ((splitNl (cleanQuotes (commasToSpaces sourceText))).map
        (lemLine lem)).isEmpty = false := by
      rcases hml : (splitNl (cleanQuotes (commasToSpaces sourceText))).map (lemLine lem)
        with _ | ⟨a, rest⟩
      · rw [hml] at h6m
        simp at h6m
      · simp
    simp only [hne, Bool.false_eq_true, if_false]
    have h5 : 5 ≤ (((splitNl (cleanQuotes (commasToSpaces sourceText))).map
        (lemLine lem)).tail.map (filterLine
          ((splitWs ((splitNl (cleanQuotes (commasToSpaces sourceText))).map
            (lemLine lem)).tail.flatten).filter
              (fun w => decide (w ∈ splitWs vocabText))) m)).length := by
      simp only [List.length_map, List.length_tail]
      omega
    rw [if_pos h5]
    have hne2 : (((splitNl (cleanQuotes (commasToSpaces sourceText))).map
        (lemLine lem)).tail.map (filterLine
          ((splitWs ((splitNl (cleanQuotes (commasToSpaces sourceText))).map
            (lemLine lem)).tail.flatten).filter
              (fun w => decide (w ∈ splitWs vocabText))) m)).isEmpty = false := by
      rcases hml : ((splitNl (cleanQuotes (commasToSpaces sourceText))).map
          (lemLine lem)).tail.map (filterLine
            ((splitWs ((splitNl (cleanQuotes (commasToSpaces sourceText))).map
              (lemLine lem)).tail.flatten).filter
                (fun w => decide (w ∈ splitWs vocabText))) m) with _ | ⟨b, rs⟩
      · rw [hml] at h5
        simp at h5
      · simp
    simp only [hne2, Bool.false_eq_true, if_false, Option.isSome_some, true_iff]
    omega
  · rw [if_neg h6]
    simp only [Option.isSome_none, Bool.false_eq_true, false_iff]
    omega
